import Mathlib

/-!
Verification of the beacon-chain graffiti scanner (src/index.ts).

The development shallowly embeds the script's pure data manipulation:
JavaScript strings become `List Char`, JavaScript numbers that can be `NaN`
become `Option Int` (`none` models `NaN`), files become their textual
contents (`List Char`).  Network calls are out of scope; the functions
below model the data transformations the script performs on fetched or
persisted data.
-/

set_option maxRecDepth 8000

/-! ## JavaScript string primitives -/

/-- Code points removed by `String.prototype.trim` (and skipped by
`parseInt`): the ECMAScript WhiteSpace set (TAB, VT, FF, SP, NBSP,
ZWNBSP and the Unicode Zs category: U+0020, U+00A0, U+1680,
U+2000..U+200A, U+202F, U+205F, U+3000) together with the
LineTerminator set (LF, CR, LS, PS). -/
def isWsCode (n : Nat) : Bool :=
  decide (n = 0x9) || decide (n = 0xA) || decide (n = 0xB) || decide (n = 0xC) ||
  decide (n = 0xD) || decide (n = 0x20) || decide (n = 0xA0) || decide (n = 0x1680) ||
  (decide (0x2000 ≤ n) && decide (n ≤ 0x200A)) ||
  decide (n = 0x2028) || decide (n = 0x2029) || decide (n = 0x202F) ||
  decide (n = 0x205F) || decide (n = 0x3000) || decide (n = 0xFEFF)

def isWs (c : Char) : Bool :=
  isWsCode c.toNat

/-- Remove trailing whitespace. -/
def trimRight (l : List Char) : List Char :=
  (l.reverse.dropWhile isWs).reverse

/-- `String.prototype.trim`: whitespace removed from both ends. -/
def jsTrim (l : List Char) : List Char :=
  trimRight (l.dropWhile isWs)

/-- `String.prototype.split` with a single-character separator:
`"".split(sep)` is `[""]`, and a separator at either end produces an
empty piece there. -/
def splitOnChar (sep : Char) : List Char → List (List Char)
  | [] => [[]]
  | c :: rest =>
    let r := splitOnChar sep rest
    if c = sep then [] :: r else (c :: r.headD []) :: r.tail

/-- `Array.prototype.join` with a single-character separator. -/
def joinSep (sep : Char) : List (List Char) → List Char
  | [] => []
  | [x] => x
  | x :: y :: ys => x ++ sep :: joinSep sep (y :: ys)

/-! ## `parseInt` (ECMAScript, no explicit radix)

`parseInt` skips leading whitespace, reads an optional sign, switches to
hexadecimal after a `0x`/`0X` prefix, takes the longest run of digits and
returns `NaN` (modelled `none`) when that run is empty.  It never throws. -/

def isDigitCh (c : Char) : Bool :=
  decide (48 ≤ c.toNat) && decide (c.toNat ≤ 57)

def isHexDigitCh (c : Char) : Bool :=
  isDigitCh c || (decide ('a' ≤ c) && decide (c ≤ 'f')) ||
    (decide ('A' ≤ c) && decide (c ≤ 'F'))

def digitsToNat (l : List Char) : Nat :=
  l.foldl (fun acc c => acc * 10 + (c.toNat - 48)) 0

def hexDigitVal (c : Char) : Nat :=
  if isDigitCh c then c.toNat - 48
  else if decide ('a' ≤ c) && decide (c ≤ 'f') then c.toNat - 87
  else c.toNat - 55

def hexToNat (l : List Char) : Nat :=
  l.foldl (fun acc c => acc * 16 + hexDigitVal c) 0

def parseDecDigits (l : List Char) : Option Nat :=
  let ds := l.takeWhile isDigitCh
  if ds = [] then none else some (digitsToNat ds)

def parseHexDigits (l : List Char) : Option Nat :=
  let ds := l.takeWhile isHexDigitCh
  if ds = [] then none else some (hexToNat ds)

def jsParseUnsigned (l : List Char) : Option Nat :=
  if l.headD ' ' == '0' && ((l.drop 1).headD ' ' == 'x' || (l.drop 1).headD ' ' == 'X')
  then parseHexDigits (l.drop 2)
  else parseDecDigits l

def jsParseIntCore : List Char → Option Int
  | [] => none
  | c :: rest =>
    if c = '-' then (jsParseUnsigned rest).map (fun n : Nat => -(n : Int))
    else if c = '+' then (jsParseUnsigned rest).map (fun n : Nat => (n : Int))
    else (jsParseUnsigned (c :: rest)).map (fun n : Nat => (n : Int))

def jsParseInt (l : List Char) : Option Int :=
  jsParseIntCore (l.dropWhile isWs)

/-! ## JavaScript number printing (`Number.prototype.toString`)

Only integral values and `NaN` occur in the script. -/

/-- Decimal digits of `n`, least significant first.  Structurally
recursive on a fuel argument so that it reduces inside the kernel; any
fuel above `n` gives the same result, and the callers pass `n + 1`. -/
def natDigitsRevAux : Nat → Nat → List Char
  | 0, _ => []
  | fuel + 1, n =>
    if n < 10 then [Char.ofNat (48 + n)]
    else Char.ofNat (48 + n % 10) :: natDigitsRevAux fuel (n / 10)

def natDigitsRev (n : Nat) : List Char := natDigitsRevAux (n + 1) n

def natToChars (n : Nat) : List Char :=
  (natDigitsRev n).reverse

/-- `String(x)` for a JavaScript number that is `NaN` or an integer.
Plain decimal is exact for magnitudes up to 2^53 - 1 (JavaScript safe
integers, covering every slot and proposer index the program handles);
for larger doubles `String` may round to the shortest representation or
switch to exponent notation, so round-trip statements restrict their
numeric fields to the safe range. -/
def numToChars : Option Int → List Char
  | none => ("NaN").toList
  | some n => if n < 0 then '-' :: natToChars n.natAbs else natToChars n.toNat

/-- JavaScript safe-integer bound for a possibly-`NaN` field: `NaN`
passes (its printing "NaN" is exact), a number must have magnitude at
most 2^53 - 1. -/
def numSafe (x : Option Int) : Bool :=
  x.all (fun n => decide (n.natAbs ≤ 9007199254740991))

/-! ## The record store (class CsvRecord) -/

def separator : Char := ','

/-- `["slot", "proposerIndex", "graffiti"].join(separator)` -/
def header : List Char :=
  joinSep separator [("slot").toList, ("proposerIndex").toList, ("graffiti").toList]

/-- In-memory block record.  `slot` and `proposerIndex` are JavaScript
numbers produced by `parseInt`, hence possibly `NaN` (`none`). -/
structure Row where
  slot : Option Int
  proposerIndex : Option Int
  graffiti : List Char
deriving DecidableEq, Repr

/-- File contents created by the `CsvRecord` constructor when the file is
absent: the header line. -/
def initialFile : List Char := header ++ ['\n']

/-- The line written by `CsvRecord.addEntry`:
`[slot, proposerIndex, graffiti].join(separator)`. -/
def rowLine (r : Row) : List Char :=
  joinSep separator [numToChars r.slot, numToChars r.proposerIndex, r.graffiti]

/-- `CsvRecord.addEntry`: appends the joined row and a newline to the file. -/
def addEntry (file : List Char) (r : Row) : List Char :=
  file ++ rowLine r ++ ['\n']

/-- One iteration of the `readEntries` loop: destructure
`const [slot, proposerIndex, ...graffiti_] = row.split(separator)` and
parse.  A missing field destructures to `undefined`, which `parseInt`
turns into `NaN`, so the `headD []` defaults land in the same `none`. -/
def parseRow (line : List Char) : Row :=
  let fields := splitOnChar separator line
  { slot := jsParseInt (fields.headD [])
    proposerIndex := jsParseInt ((fields.drop 1).headD [])
    graffiti := joinSep separator (fields.drop 2) }

/-- `CsvRecord.readEntries`: split the trimmed file into lines and parse
each line (the header line included; the source has no skip). -/
def readEntries (file : List Char) : List Row :=
  (splitOnChar '\n' (jsTrim file)).map parseRow

/-- `CsvRecord.getLastSlot`: trim, split into lines, trim the last line;
`null` (`none`) when it is empty or equal to the header, else `parseInt`
of its first comma-separated field.  The result is
`Option (Option Int)`: outer `none` is JavaScript `null`, inner `none`
is `NaN`. -/
def getLastSlot (file : List Char) : Option (Option Int) :=
  let rows := splitOnChar '\n' (jsTrim file)
  let lastRow := jsTrim (rows.getLastD [])
  if lastRow = [] ∨ lastRow = header then none
  else some (jsParseInt ((splitOnChar separator lastRow).headD []))

/-! ## Scan loop configuration and resume point -/

def fromSlot : Int := 327600
def toSlot : Int := 442799

/-- Integer interval `[a, b]`, ascending, as iterated by
`for (let slot = a; slot <= b; slot++)`. -/
def intRangeIncl (a b : Int) : List Int :=
  (List.range ((b + 1 - a).toNat)).map (fun i : Nat => a + (i : Int))

/-- `record.getLastSlot() ?? fromSlot` (`??` replaces only `null`;
a `NaN` last slot passes through). -/
def lastSlotOrFrom (file : List Char) : Option Int :=
  (getLastSlot file).getD (some fromSlot)

/-- The slots the scan loop fetches, `lastSlot + 1` up to `toSlot`
inclusive.  When `lastSlot` is `NaN`, `NaN + 1` is `NaN` and
`NaN <= toSlot` is false, so the loop body never runs. -/
def scannedSlots (file : List Char) : List Int :=
  match lastSlotOrFrom file with
  | none => []
  | some last => intRangeIncl (last + 1) toSlot

/-! ## Filter and aggregation -/

/-- Bool test whether `pat` occurs as a contiguous subsequence. -/
def startsWithSeq : List Char → List Char → Bool
  | [], _ => true
  | _ :: _, [] => false
  | c :: p, d :: l => c = d && startsWithSeq p l

def hasSubSeq (pat : List Char) : List Char → Bool
  | [] => startsWithSeq pat []
  | c :: rest => startsWithSeq pat (c :: rest) || hasSubSeq pat rest

/-- `/dappnode/i.test(g)`: the literal pattern is found case-insensitively,
i.e. the lower-cased text contains `"dappnode"`. -/
def matchesGraffiti (g : List Char) : Bool :=
  hasSubSeq (("dappnode").toList) (g.map Char.toLower)

/-- JavaScript `x >= y` for a possibly-`NaN` left operand: false on `NaN`. -/
def numGE (x : Option Int) (y : Int) : Bool :=
  match x with
  | none => false
  | some v => decide (y ≤ v)

/-- JavaScript `x <= y` for a possibly-`NaN` left operand: false on `NaN`. -/
def numLE (x : Option Int) (y : Int) : Bool :=
  match x with
  | none => false
  | some v => decide (v ≤ y)

/-- The filter condition of the aggregation loop in `runScript`. -/
def keepEntry (e : Row) : Bool :=
  numGE e.slot fromSlot && numLE e.slot toSlot && matchesGraffiti e.graffiti

/-- `Set.prototype.add` followed by insertion-ordered iteration:
append if absent.  (JavaScript sets use SameValueZero, under which
`NaN` equals `NaN`; `none = none` models this.) -/
def addUnique (acc : List (Option Int)) (x : Option Int) : List (Option Int) :=
  if x ∈ acc then acc else acc ++ [x]

def collectStep (acc : List (Option Int)) (e : Row) : List (Option Int) :=
  if keepEntry e then addUnique acc e.proposerIndex else acc

/-- The aggregation pass of `runScript`: walk the entries, add the
proposer index of each record that passes the slot-range and graffiti
filters to a set, then list the set in insertion order. -/
def collectIndexes (entries : List Row) : List (Option Int) :=
  entries.foldl collectStep []

/-- Deduplication keeping the first occurrence, in order. -/
def firstSeenDedup (l : List (Option Int)) : List (Option Int) :=
  l.foldl addUnique []

/-! ## Deposit resolver (fetchDepositAddresses) -/

structure Deposit where
  amount : Int
  from_address : List Char
  publickey : List Char
  removed : Bool
  valid_signature : Bool
deriving DecidableEq, Repr

/-- The rejection test in `fetchDepositAddresses`:
`deposit.amount < 32000000000 || deposit.removed || !deposit.valid_signature`. -/
def badDeposit (d : Deposit) : Bool :=
  decide (d.amount < 32000000000) || d.removed || !d.valid_signature

/-- Processing of one response: bad deposits are logged by public key,
good ones contribute their funding address.  Returns
(addresses, logged public keys). -/
def processDeposits (ds : List Deposit) : List (List Char) × List (List Char) :=
  ds.foldl
    (fun acc d =>
      if badDeposit d then (acc.1, acc.2 ++ [d.publickey])
      else (acc.1 ++ [d.from_address], acc.2))
    ([], [])

/-- The batching loop: `for (let i = 0; i < v.length; i += 100)` taking
`v.slice(i, i + 100)` each time.  Fuel-based structural recursion; every
step consumes at least one element, so fuel `l.length` always suffices. -/
def batchIndexesAux : Nat → List Int → List (List Int)
  | 0, _ => []
  | fuel + 1, l =>
    if l = [] then [] else l.take 100 :: batchIndexesAux fuel (l.drop 100)

def batchIndexes (l : List Int) : List (List Int) :=
  batchIndexesAux l.length l

/-! ## Graffiti decoding (parseGraffiti) -/

/-- Value of a standard base64 alphabet character; `none` for characters
the decoder skips (`=` padding included). -/
def b64Val (c : Char) : Option Nat :=
  if decide ('A' ≤ c) && decide (c ≤ 'Z') then some (c.toNat - 65)
  else if decide ('a' ≤ c) && decide (c ≤ 'z') then some (c.toNat - 71)
  else if isDigitCh c then some (c.toNat + 4)
  else if c = '+' then some 62
  else if c = '/' then some 63
  else none

/-- Regroup sextets into bytes; a trailing group of 3 or 2 sextets yields
2 or 1 bytes, a lone sextet nothing (Node `Buffer.from(s, "base64")`). -/
def b64Group : List Nat → List Nat
  | a :: b :: c :: d :: rest =>
    (a * 4 + b / 16) :: ((b % 16) * 16 + c / 4) :: ((c % 4) * 64 + d) :: b64Group rest
  | [a, b, c] => [a * 4 + b / 16, (b % 16) * 16 + c / 4]
  | [a, b] => [a * 4 + b / 16]
  | _ => []

def base64Decode (l : List Char) : List Nat :=
  b64Group (l.filterMap b64Val)

/-- The truncation loop of `parseGraffiti`, verbatim: the iterator ranges
over the entries of the original buffer while the `buff` binding is
re-sliced (`buff.slice(0, i)`, i.e. `take i`, which clamps) at every zero
byte found. -/
def graffitiTruncate (orig : List Nat) : List Nat :=
  orig.enum.foldl (fun buff p => if p.2 = 0 then buff.take p.1 else buff) orig

def replChar : Char := Char.ofNat 0xFFFD

def scalarOrRepl (n : Nat) : Char :=
  if n < 0xD800 ∨ (0xE000 ≤ n ∧ n < 0x110000) then Char.ofNat n else replChar

/-- Decode one UTF-8 sequence starting at byte `b1`; returns the decoded
character (U+FFFD for invalid sequences) and the bytes still to decode. -/
def utf8Step (b1 : Nat) (rest : List Nat) : Char × List Nat :=
  if b1 < 0x80 then (Char.ofNat b1, rest)
  else if b1 < 0xC2 then (replChar, rest)
  else if b1 < 0xE0 then
    match rest with
    | [] => (replChar, [])
    | b2 :: rest2 =>
      if 0x80 ≤ b2 ∧ b2 < 0xC0 then
        (scalarOrRepl ((b1 - 0xC0) * 0x40 + (b2 - 0x80)), rest2)
      else (replChar, rest)
  else if b1 < 0xF0 then
    match rest with
    | b2 :: b3 :: rest3 =>
      if (0x80 ≤ b2 ∧ b2 < 0xC0) ∧ (0x80 ≤ b3 ∧ b3 < 0xC0) ∧
          ¬(b1 = 0xE0 ∧ b2 < 0xA0) ∧ ¬(b1 = 0xED ∧ 0xA0 ≤ b2) then
        (scalarOrRepl ((b1 - 0xE0) * 0x1000 + (b2 - 0x80) * 0x40 + (b3 - 0x80)), rest3)
      else (replChar, rest)
    | _ => (replChar, rest)
  else if b1 < 0xF5 then
    match rest with
    | b2 :: b3 :: b4 :: rest4 =>
      if (0x80 ≤ b2 ∧ b2 < 0xC0) ∧ (0x80 ≤ b3 ∧ b3 < 0xC0) ∧ (0x80 ≤ b4 ∧ b4 < 0xC0) ∧
          ¬(b1 = 0xF0 ∧ b2 < 0x90) ∧ ¬(b1 = 0xF4 ∧ 0x90 ≤ b2) then
        (scalarOrRepl ((b1 - 0xF0) * 0x40000 + (b2 - 0x80) * 0x1000 +
            (b3 - 0x80) * 0x40 + (b4 - 0x80)), rest4)
      else (replChar, rest)
    | _ => (replChar, rest)
  else (replChar, rest)

theorem utf8Step_length (b1 : Nat) (rest : List Nat) :
    (utf8Step b1 rest).2.length ≤ rest.length := by
  rcases rest with _ | ⟨b2, rest2⟩
  · simp only [utf8Step]
    split_ifs <;> simp
  · rcases rest2 with _ | ⟨b3, rest3⟩
    · simp only [utf8Step]
      split_ifs <;> simp
    · rcases rest3 with _ | ⟨b4, rest4⟩ <;>
        · simp only [utf8Step]
          split_ifs <;> simp <;> omega

/-- UTF-8 decoding with U+FFFD replacement for invalid sequences
(`buff.toString("utf8")`).  Fuel-based structural recursion; every step
consumes at least one byte (`utf8Step_length`), so fuel `l.length`
always suffices. -/
def utf8DecodeAux : Nat → List Nat → List Char
  | 0, _ => []
  | fuel + 1, l =>
    match l with
    | [] => []
    | b1 :: rest => (utf8Step b1 rest).1 :: utf8DecodeAux fuel (utf8Step b1 rest).2

def utf8Decode (l : List Nat) : List Char :=
  utf8DecodeAux l.length l

/-- `parseGraffiti`: base64 decode, run the zero-byte truncation loop,
decode the remaining bytes as UTF-8. -/
def parseGraffiti (base64 : List Char) : List Char :=
  utf8Decode (graffitiTruncate (base64Decode base64))

/-! ## Sample records used in concrete checks -/

def rowCommaGraffiti : Row :=
  { slot := some 1, proposerIndex := some 2, graffiti := ("dapp,node").toList }

def rowTrailingSpace : Row :=
  { slot := some 1, proposerIndex := some 2, graffiti := ("x ").toList }

def rowNewlineGraffiti : Row :=
  { slot := some 3, proposerIndex := some 4, graffiti := ("a\nb").toList }

/-- Graffiti ending in a vertical tab (U+000B), whitespace for the
JavaScript trim but not an ASCII space. -/
def rowTrailingVTab : Row :=
  { slot := some 5, proposerIndex := some 6, graffiti := ['x', Char.ofNat 0xB] }

/-! ## Character-class helper lemmas -/

theorem digit_ne (c c' : Char) (h : isDigitCh c = true) (h' : isDigitCh c' = false) :
    c ≠ c' := by
  intro e
  rw [e, h'] at h
  cases h

theorem isWsCode_eq_false_of_digit (n : Nat) (h1 : 48 ≤ n) (h2 : n ≤ 57) :
    isWsCode n = false := by
  rcases hw : isWsCode n
  · rfl
  · exfalso
    unfold isWsCode at hw
    simp only [Bool.or_eq_true, decide_eq_true_eq, Bool.and_eq_true] at hw
    omega

theorem digit_not_ws (c : Char) (h : isDigitCh c = true) : isWs c = false := by
  have hb : (decide (48 ≤ c.toNat) && decide (c.toNat ≤ 57)) = true := h
  simp only [Bool.and_eq_true, decide_eq_true_eq] at hb
  exact isWsCode_eq_false_of_digit c.toNat hb.1 hb.2

theorem takeWhile_all {α : Type} {p : α → Bool} :
    ∀ l : List α, (∀ c ∈ l, p c = true) → l.takeWhile p = l := by
  intro l h
  induction l with
  | nil => rfl
  | cons c t ih =>
    rw [List.takeWhile_cons, if_pos (h c (List.mem_cons_self c t))]
    rw [ih fun x hx => h x (List.mem_cons_of_mem c hx)]

theorem take_length_takeWhile {α : Type} {p : α → Bool} :
    ∀ l : List α, l.take (l.takeWhile p).length = l.takeWhile p := by
  intro l
  induction l with
  | nil => rfl
  | cons c t ih =>
    rw [List.takeWhile_cons]
    rcases h : p c
    · simp
    · simp [ih]

/-! ## Decimal printing round-trips through `parseInt` -/

theorem digitsToNat_append (xs : List Char) (c : Char) :
    digitsToNat (xs ++ [c]) = digitsToNat xs * 10 + (c.toNat - 48) := by
  simp [digitsToNat, List.foldl_append]

theorem digitChar_toNat (d : Nat) (h : d < 10) : (Char.ofNat (48 + d)).toNat = 48 + d := by
  interval_cases d <;> decide

theorem digitChar_isDigit (d : Nat) (h : d < 10) :
    isDigitCh (Char.ofNat (48 + d)) = true := by
  interval_cases d <;> decide

theorem natDigitsRevAux_spec : ∀ fuel n, n < fuel →
    (∀ c ∈ natDigitsRevAux fuel n, isDigitCh c = true) ∧
    digitsToNat ((natDigitsRevAux fuel n).reverse) = n ∧
    natDigitsRevAux fuel n ≠ [] := by
  intro fuel
  induction fuel with
  | zero => intro n h; omega
  | succ fuel ih =>
    intro n h
    by_cases h10 : n < 10
    · refine ⟨?_, ?_, ?_⟩
      · intro c hc
        simp only [natDigitsRevAux, if_pos h10, List.mem_singleton] at hc
        rw [hc]
        exact digitChar_isDigit n h10
      · simp only [natDigitsRevAux, if_pos h10, List.reverse_singleton]
        have : digitsToNat [Char.ofNat (48 + n)] = (Char.ofNat (48 + n)).toNat - 48 := by
          simp [digitsToNat]
        rw [this, digitChar_toNat n h10]
        omega
      · simp [natDigitsRevAux, if_pos h10]
    · have hdiv : n / 10 < fuel := by
        have h1 : 0 < n := by omega
        have := Nat.div_lt_self h1 (by omega : 1 < 10)
        omega
      obtain ⟨ihm, ihv, ihn⟩ := ih (n / 10) hdiv
      have hmod : n % 10 < 10 := Nat.mod_lt n (by omega)
      refine ⟨?_, ?_, ?_⟩
      · intro c hc
        simp only [natDigitsRevAux, if_neg h10, List.mem_cons] at hc
        rcases hc with rfl | hc
        · exact digitChar_isDigit _ hmod
        · exact ihm c hc
      · simp only [natDigitsRevAux, if_neg h10, List.reverse_cons]
        rw [digitsToNat_append, ihv, digitChar_toNat _ hmod]
        omega
      · simp [natDigitsRevAux, if_neg h10]

theorem natToChars_digits (n : Nat) : ∀ c ∈ natToChars n, isDigitCh c = true := by
  intro c hc
  have := (natDigitsRevAux_spec (n + 1) n (by omega)).1
  exact this c (List.mem_reverse.mp hc)

theorem digitsToNat_natToChars (n : Nat) : digitsToNat (natToChars n) = n :=
  (natDigitsRevAux_spec (n + 1) n (by omega)).2.1

theorem natToChars_ne_nil (n : Nat) : natToChars n ≠ [] := by
  intro h
  have := (natDigitsRevAux_spec (n + 1) n (by omega)).2.2
  exact this (by simpa [natToChars] using congrArg List.reverse h)

theorem parseDecDigits_natToChars (n : Nat) : parseDecDigits (natToChars n) = some n := by
  unfold parseDecDigits
  rw [takeWhile_all _ (natToChars_digits n), if_neg (natToChars_ne_nil n),
    digitsToNat_natToChars n]

theorem jsParseUnsigned_natToChars (n : Nat) : jsParseUnsigned (natToChars n) = some n := by
  unfold jsParseUnsigned
  have h2 : (((natToChars n).drop 1).headD ' ' == 'x'
      || ((natToChars n).drop 1).headD ' ' == 'X') = false := by
    rcases hd : (natToChars n).drop 1 with _ | ⟨c, t⟩
    · simp
    · have hc : c ∈ natToChars n :=
        List.mem_of_mem_drop (by rw [hd]; exact List.mem_cons_self c t)
      have hdig := natToChars_digits n c hc
      have hx : c ≠ 'x' := digit_ne c 'x' hdig (by decide)
      have hX : c ≠ 'X' := digit_ne c 'X' hdig (by decide)
      simp [hx, hX]
  rw [h2, Bool.and_false]
  exact parseDecDigits_natToChars n

theorem jsParseIntCore_natToChars (n : Nat) :
    jsParseIntCore (natToChars n) = some (n : Int) := by
  rcases hnc : natToChars n with _ | ⟨c, t⟩
  · exact absurd hnc (natToChars_ne_nil n)
  · have hdig : isDigitCh c = true :=
      natToChars_digits n c (by rw [hnc]; exact List.mem_cons_self c t)
    have hm : c ≠ '-' := digit_ne c '-' hdig (by decide)
    have hp : c ≠ '+' := digit_ne c '+' hdig (by decide)
    simp only [jsParseIntCore, if_neg hm, if_neg hp]
    rw [← hnc, jsParseUnsigned_natToChars n]
    rfl

theorem dropWhile_ws_natToChars (n : Nat) :
    (natToChars n).dropWhile isWs = natToChars n := by
  rcases hnc : natToChars n with _ | ⟨c, t⟩
  · rfl
  · have hdig : isDigitCh c = true :=
      natToChars_digits n c (by rw [hnc]; exact List.mem_cons_self c t)
    rw [List.dropWhile_cons, if_neg (by rw [digit_not_ws c hdig]; simp)]

theorem jsParseInt_natToChars (n : Nat) : jsParseInt (natToChars n) = some (n : Int) := by
  unfold jsParseInt
  rw [dropWhile_ws_natToChars, jsParseIntCore_natToChars]

/-- `parseInt` inverts the printing of any slot or proposer-index value,
`NaN` (printed `"NaN"`) included. -/
theorem jsParseInt_numToChars (v : Option Int) : jsParseInt (numToChars v) = v := by
  rcases v with _ | n
  · decide
  · by_cases hn : n < 0
    · simp only [numToChars, if_pos hn]
      unfold jsParseInt
      rw [List.dropWhile_cons, if_neg (by decide)]
      simp only [jsParseIntCore, if_pos rfl]
      rw [jsParseUnsigned_natToChars]
      have hm : (some n.natAbs).map (fun m : Nat => -(m : Int)) = some (-(n.natAbs : Int)) :=
        rfl
      rw [hm]
      have habs : (n.natAbs : Int) = -n := Int.ofNat_natAbs_of_nonpos (by omega)
      rw [habs, neg_neg]
      simp
    · simp only [numToChars, if_neg hn]
      rw [jsParseInt_natToChars]
      congr 1
      omega

theorem numToChars_chars (v : Option Int) (c : Char) (hc : c ∈ numToChars v) :
    isDigitCh c = true ∨ c = '-' ∨ c = 'N' ∨ c = 'a' := by
  rcases v with _ | n
  · simp only [numToChars] at hc
    have : c = 'N' ∨ c = 'a' ∨ c = 'N' := by simpa using hc
    tauto
  · simp only [numToChars] at hc
    split at hc
    · rcases List.mem_cons.mp hc with rfl | hc
      · tauto
      · exact Or.inl (natToChars_digits _ c hc)
    · exact Or.inl (natToChars_digits _ c hc)

theorem numToChars_no_comma (v : Option Int) : ',' ∉ numToChars v := by
  intro h
  rcases numToChars_chars v ',' h with h' | h' | h' | h' <;> exact absurd h' (by decide)

theorem numToChars_no_newline (v : Option Int) : '\n' ∉ numToChars v := by
  intro h
  rcases numToChars_chars v '\n' h with h' | h' | h' | h' <;> exact absurd h' (by decide)

theorem numToChars_not_ws (v : Option Int) (c : Char) (hc : c ∈ numToChars v) :
    isWs c = false := by
  rcases numToChars_chars v c hc with h' | h' | h' | h'
  · exact digit_not_ws c h'
  · rw [h']; decide
  · rw [h']; decide
  · rw [h']; decide

/-! ## Lemmas about split, join and trim -/

theorem splitOnChar_ne_nil (sep : Char) (l : List Char) : splitOnChar sep l ≠ [] := by
  cases l with
  | nil => simp [splitOnChar]
  | cons c rest =>
    simp only [splitOnChar]
    split <;> simp

theorem splitOnChar_exists_cons (sep : Char) (l : List Char) :
    ∃ y ys, splitOnChar sep l = y :: ys := by
  cases h : splitOnChar sep l with
  | nil => exact absurd h (splitOnChar_ne_nil sep l)
  | cons y ys => exact ⟨y, ys, rfl⟩

theorem splitOnChar_cons_self (sep : Char) (rest : List Char) :
    splitOnChar sep (sep :: rest) = [] :: splitOnChar sep rest := by
  simp [splitOnChar]

theorem splitOnChar_cons_ne (sep c : Char) (rest : List Char) (hc : ¬(c = sep)) :
    splitOnChar sep (c :: rest)
      = (c :: (splitOnChar sep rest).headD []) :: (splitOnChar sep rest).tail := by
  simp [splitOnChar, hc]

theorem splitOnChar_single (sep : Char) (l : List Char) (h : sep ∉ l) :
    splitOnChar sep l = [l] := by
  induction l with
  | nil => rfl
  | cons c rest ih =>
    have hc : ¬(c = sep) := fun e => h (by rw [e]; exact List.mem_cons_self sep rest)
    have hrest : sep ∉ rest := fun hm => h (List.mem_cons_of_mem c hm)
    rw [splitOnChar_cons_ne sep c rest hc, ih hrest]
    rfl

theorem splitOnChar_append_sep (sep : Char) (b : List Char) :
    ∀ a : List Char, sep ∉ a → splitOnChar sep (a ++ sep :: b) = a :: splitOnChar sep b := by
  intro a
  induction a with
  | nil =>
    intro _
    rw [List.nil_append, splitOnChar_cons_self]
  | cons c a' ih =>
    intro ha
    have hc : ¬(c = sep) := fun e => ha (by rw [e]; exact List.mem_cons_self sep a')
    have ha' : sep ∉ a' := fun hm => ha (List.mem_cons_of_mem c hm)
    rw [List.cons_append, splitOnChar_cons_ne sep c _ hc, ih ha']
    rfl

theorem joinSep_splitOnChar (sep : Char) (l : List Char) :
    joinSep sep (splitOnChar sep l) = l := by
  induction l with
  | nil => rfl
  | cons c rest ih =>
    obtain ⟨y, ys, hr⟩ := splitOnChar_exists_cons sep rest
    by_cases hc : c = sep
    · rw [hc, splitOnChar_cons_self, hr]
      rw [hr] at ih
      show joinSep sep ([] :: y :: ys) = sep :: rest
      rw [show joinSep sep ([] :: y :: ys) = [] ++ sep :: joinSep sep (y :: ys) from rfl, ih]
      rfl
    · rw [splitOnChar_cons_ne sep c rest hc, hr]
      rw [hr] at ih
      cases ys with
      | nil =>
        have hy : y = rest := by simpa [joinSep] using ih
        show joinSep sep [c :: y] = c :: rest
        rw [show joinSep sep [c :: y] = c :: y from rfl, hy]
      | cons z zs =>
        show joinSep sep ((c :: y) :: z :: zs) = c :: rest
        rw [show joinSep sep ((c :: y) :: z :: zs)
            = (c :: y) ++ sep :: joinSep sep (z :: zs) from rfl]
        rw [show joinSep sep (y :: z :: zs) = y ++ sep :: joinSep sep (z :: zs) from rfl] at ih
        rw [← ih]
        rfl

theorem mem_of_mem_splitOnChar (sep : Char) :
    ∀ l part : List Char, part ∈ splitOnChar sep l → ∀ c ∈ part, c ∈ l := by
  intro l
  induction l with
  | nil =>
    intro part hp c hc
    simp only [splitOnChar, List.mem_singleton] at hp
    subst hp
    simp at hc
  | cons d rest ih =>
    intro part hp c hc
    by_cases hd : d = sep
    · rw [hd, splitOnChar_cons_self] at hp
      rcases List.mem_cons.mp hp with rfl | hp
      · simp at hc
      · exact List.mem_cons_of_mem _ (ih part hp c hc)
    · rw [splitOnChar_cons_ne sep d rest hd] at hp
      obtain ⟨y, ys, hr⟩ := splitOnChar_exists_cons sep rest
      rcases List.mem_cons.mp hp with rfl | hp
      · rcases List.mem_cons.mp hc with rfl | hc2
        · exact List.mem_cons_self c rest
        · rw [hr] at hc2
          have hy : y ∈ splitOnChar sep rest := by
            rw [hr]; exact List.mem_cons_self y ys
          exact List.mem_cons_of_mem _ (ih y hy c (by simpa using hc2))
      · have hp2 : part ∈ splitOnChar sep rest := List.mem_of_mem_tail hp
        exact List.mem_cons_of_mem _ (ih part hp2 c hc)

theorem splitOnChar_no_sep (sep : Char) :
    ∀ l part : List Char, part ∈ splitOnChar sep l → sep ∉ part := by
  intro l
  induction l with
  | nil =>
    intro part hp
    simp only [splitOnChar, List.mem_singleton] at hp
    subst hp
    simp
  | cons d rest ih =>
    intro part hp
    by_cases hd : d = sep
    · rw [hd, splitOnChar_cons_self] at hp
      rcases List.mem_cons.mp hp with rfl | hp
      · simp
      · exact ih part hp
    · rw [splitOnChar_cons_ne sep d rest hd] at hp
      obtain ⟨y, ys, hr⟩ := splitOnChar_exists_cons sep rest
      rcases List.mem_cons.mp hp with rfl | hp
      · intro hm
        rcases List.mem_cons.mp hm with e | hm2
        · exact hd e.symm
        · rw [hr] at hm2
          have hy : y ∈ splitOnChar sep rest := by
            rw [hr]; exact List.mem_cons_self y ys
          exact ih y hy (by simpa using hm2)
      · exact ih part (List.mem_of_mem_tail hp)

theorem length_splitOnChar (sep : Char) :
    ∀ l : List Char, (splitOnChar sep l).length = l.count sep + 1 := by
  intro l
  induction l with
  | nil => simp [splitOnChar]
  | cons d rest ih =>
    by_cases hd : d = sep
    · rw [hd, splitOnChar_cons_self, List.length_cons, ih, List.count_cons]
      simp
    · rw [splitOnChar_cons_ne sep d rest hd]
      obtain ⟨y, ys, hr⟩ := splitOnChar_exists_cons sep rest
      rw [hr] at ih
      rw [hr]
      simp only [List.length_cons] at ih
      simp only [List.headD_cons, List.tail_cons, List.length_cons, List.count_cons]
      have hde : (d == sep) = false := by simpa using hd
      rw [hde]
      simpa using ih

theorem getLast?_cons_of_ne_nil {α : Type} (a : α) {l : List α} (h : l ≠ []) :
    (a :: l).getLast? = l.getLast? := by
  cases l with
  | nil => exact absurd rfl h
  | cons b t => exact List.getLast?_cons_cons

theorem getLast?_append_right {α : Type} :
    ∀ a b : List α, b ≠ [] → (a ++ b).getLast? = b.getLast? := by
  intro a
  induction a with
  | nil => simp
  | cons c a' ih =>
    intro b hb
    have hne : a' ++ b ≠ [] := fun he => hb (List.append_eq_nil.mp he).2
    rw [List.cons_append, getLast?_cons_of_ne_nil c hne, ih b hb]

theorem splitOnChar_getLast (sep : Char) (b : List Char) (hb : sep ∉ b) :
    ∀ a : List Char, (splitOnChar sep (a ++ sep :: b)).getLast? = some b := by
  intro a
  induction a with
  | nil =>
    rw [List.nil_append, splitOnChar_cons_self, splitOnChar_single sep b hb]
    rfl
  | cons c a' ih =>
    rw [List.cons_append]
    by_cases hc : c = sep
    · rw [hc, splitOnChar_cons_self,
        getLast?_cons_of_ne_nil _ (splitOnChar_ne_nil sep _)]
      exact ih
    · rw [splitOnChar_cons_ne sep c _ hc]
      obtain ⟨y, ys, hr⟩ := splitOnChar_exists_cons sep (a' ++ sep :: b)
      have h2 : 2 ≤ (splitOnChar sep (a' ++ sep :: b)).length := by
        rw [length_splitOnChar]
        have hcnt : 0 < (a' ++ sep :: b).count sep := by
          rw [List.count_append, List.count_cons]
          simp
        omega
      have hys : ys ≠ [] := by
        rw [hr] at h2
        simp only [List.length_cons] at h2
        intro he
        rw [he] at h2
        simp at h2
      rw [hr] at ih
      rw [getLast?_cons_of_ne_nil y hys] at ih
      rw [hr]
      simp only [List.headD_cons, List.tail_cons]
      rw [getLast?_cons_of_ne_nil _ hys]
      exact ih

/-! ## Trim lemmas -/

theorem dropWhile_isWs_cons_neg {c : Char} (l : List Char) (h : isWs c = false) :
    (c :: l).dropWhile isWs = c :: l := by
  rw [List.dropWhile_cons, if_neg (by rw [h]; simp)]

theorem dropWhile_append_cases {α : Type} [DecidableEq α] (p : α → Bool) :
    ∀ x y : List α, List.dropWhile p (x ++ y)
      = if List.dropWhile p x = [] then List.dropWhile p y
        else List.dropWhile p x ++ y := by
  intro x
  induction x with
  | nil => intro y; simp
  | cons c x' ih =>
    intro y
    by_cases hp : p c = true
    · simp only [List.cons_append, List.dropWhile_cons, if_pos hp]
      exact ih y
    · simp only [List.cons_append, List.dropWhile_cons, if_neg hp]
      rw [if_neg (by simp : ¬(c :: x' = []))]

theorem trimRight_append (a b : List Char) :
    trimRight (a ++ b) = if trimRight b = [] then trimRight a else a ++ trimRight b := by
  unfold trimRight
  rw [List.reverse_append, dropWhile_append_cases]
  by_cases hb : b.reverse.dropWhile isWs = []
  · rw [if_pos hb, if_pos (by rw [hb]; rfl)]
  · rw [if_neg hb, if_neg (fun he => hb (List.reverse_eq_nil_iff.mp he))]
    rw [List.reverse_append, List.reverse_reverse]

theorem trimRight_of_getLast (l : List Char)
    (h : ∀ c, l.getLast? = some c → isWs c = false) : trimRight l = l := by
  unfold trimRight
  rcases hr : l.reverse with _ | ⟨c, t⟩
  · simp only [List.dropWhile_nil, List.reverse_nil]
    exact (List.reverse_eq_nil_iff.mp hr).symm
  · have hc : l.getLast? = some c := by
      rw [← List.head?_reverse, hr]
      rfl
    rw [dropWhile_isWs_cons_neg t (h c hc), ← hr, List.reverse_reverse]

/-! ## Header and row-line structure -/

theorem header_cons_form : header = 's' :: ("lot,proposerIndex,graffiti").toList := by decide

theorem header_no_newline : '\n' ∉ header := by decide

theorem header_getLast : header.getLast? = some 'i' := by decide

theorem rowLine_eq (r : Row) :
    rowLine r = numToChars r.slot ++ separator ::
      (numToChars r.proposerIndex ++ separator :: r.graffiti) := rfl

theorem rowLine_ne_nil (r : Row) : rowLine r ≠ [] := by
  rw [rowLine_eq]
  intro h
  exact absurd (List.append_eq_nil.mp h).2 (by simp)

theorem rowLine_no_newline (r : Row) (hg : '\n' ∉ r.graffiti) : '\n' ∉ rowLine r := by
  rw [rowLine_eq]
  intro h
  rcases List.mem_append.mp h with h1 | h2
  · exact numToChars_no_newline _ h1
  · rcases List.mem_cons.mp h2 with e | h3
    · exact absurd e (by decide)
    · rcases List.mem_append.mp h3 with h4 | h5
      · exact numToChars_no_newline _ h4
      · rcases List.mem_cons.mp h5 with e | h6
        · exact absurd e (by decide)
        · exact hg h6

theorem rowLine_getLast (r : Row) :
    (rowLine r).getLast? = if r.graffiti = [] then some separator else r.graffiti.getLast? := by
  rw [rowLine_eq]
  rw [getLast?_append_right (numToChars r.slot)
    (separator :: (numToChars r.proposerIndex ++ separator :: r.graffiti)) (by simp)]
  rw [getLast?_cons_of_ne_nil separator
    (by simp : numToChars r.proposerIndex ++ separator :: r.graffiti ≠ [])]
  rw [getLast?_append_right (numToChars r.proposerIndex) (separator :: r.graffiti) (by simp)]
  rcases hg : r.graffiti with _ | ⟨g0, gs⟩
  · rw [if_pos rfl]
    rfl
  · rw [if_neg (by simp)]
    exact getLast?_cons_of_ne_nil separator (by simp)

theorem rowLine_last_not_ws (r : Row)
    (hg : Option.all (fun c => !(isWs c)) r.graffiti.getLast? = true) :
    ∀ c, (rowLine r).getLast? = some c → isWs c = false := by
  intro c hc
  rw [rowLine_getLast] at hc
  by_cases h0 : r.graffiti = []
  · rw [if_pos h0] at hc
    obtain rfl := Option.some.inj hc
    decide
  · rw [if_neg h0] at hc
    rw [hc] at hg
    simpa using hg

/-- The full record round-trip on one line: parsing the serialized row
recovers all three fields (the graffiti may contain the separator). -/
theorem parseRow_rowLine (r : Row) : parseRow (rowLine r) = r := by
  unfold parseRow
  rw [rowLine_eq]
  rw [splitOnChar_append_sep separator
    (numToChars r.proposerIndex ++ separator :: r.graffiti)
    (numToChars r.slot) (numToChars_no_comma r.slot)]
  rw [splitOnChar_append_sep separator r.graffiti
    (numToChars r.proposerIndex) (numToChars_no_comma r.proposerIndex)]
  simp only [List.headD_cons, List.drop_succ_cons, List.drop_zero, List.tail_cons]
  rw [jsParseInt_numToChars, jsParseInt_numToChars, joinSep_splitOnChar]

/-! ## Reading back an appended entry -/

theorem jsTrim_addEntry (mid : List Char) (r : Row)
    (hg : Option.all (fun c => !(isWs c)) r.graffiti.getLast? = true) :
    jsTrim ((header ++ '\n' :: mid) ++ rowLine r ++ ['\n'])
      = header ++ '\n' :: (mid ++ rowLine r) := by
  unfold jsTrim
  have hassoc : (header ++ '\n' :: mid) ++ rowLine r ++ ['\n']
      = header ++ '\n' :: (mid ++ (rowLine r ++ ['\n'])) := by
    simp [List.append_assoc]
  rw [hassoc]
  have hhd : header ++ '\n' :: (mid ++ (rowLine r ++ ['\n']))
      = 's' :: (("lot,proposerIndex,graffiti").toList
          ++ '\n' :: (mid ++ (rowLine r ++ ['\n']))) := by
    rw [header_cons_form]
    rfl
  rw [hhd, dropWhile_isWs_cons_neg _ (by decide), ← hhd]
  have h1 : header ++ '\n' :: (mid ++ (rowLine r ++ ['\n']))
      = (header ++ '\n' :: (mid ++ rowLine r)) ++ ['\n'] := by
    simp [List.append_assoc]
  rw [h1, trimRight_append, if_pos (by decide)]
  apply trimRight_of_getLast
  intro c hc
  rw [getLast?_append_right header ('\n' :: (mid ++ rowLine r)) (by simp)] at hc
  rw [getLast?_cons_of_ne_nil '\n'
    (fun he => rowLine_ne_nil r (List.append_eq_nil.mp he).2)] at hc
  rw [getLast?_append_right mid (rowLine r) (rowLine_ne_nil r)] at hc
  exact rowLine_last_not_ws r hg c hc

theorem getLast?_map {α β : Type} (f : α → β) (l : List α) :
    (l.map f).getLast? = l.getLast?.map f := by
  induction l with
  | nil => rfl
  | cons a t ih =>
    cases t with
    | nil => rfl
    | cons b t2 =>
      simp only [List.map_cons] at ih ⊢
      rw [List.getLast?_cons_cons, List.getLast?_cons_cons]
      simpa using ih

/-- Appending a record whose graffiti has no newline and no trailing
whitespace, then reading the store back, recovers the record as the last
parsed entry. -/
theorem readEntries_addEntry (mid : List Char) (r : Row)
    (hmid : mid = [] ∨ mid.getLast? = some '\n')
    (hnl : '\n' ∉ r.graffiti)
    (hg : Option.all (fun c => !(isWs c)) r.graffiti.getLast? = true) :
    (readEntries (addEntry (header ++ '\n' :: mid) r)).getLast? = some r := by
  unfold readEntries addEntry
  rw [jsTrim_addEntry mid r hg]
  rw [splitOnChar_append_sep '\n' (mid ++ rowLine r) header header_no_newline]
  have hparts : (splitOnChar '\n' (mid ++ rowLine r)).getLast? = some (rowLine r) := by
    rcases hmid with rfl | hm
    · rw [List.nil_append, splitOnChar_single '\n' _ (rowLine_no_newline r hnl)]
      rfl
    · have hne : mid ≠ [] := by
        intro he
        rw [he] at hm
        cases hm
      obtain ⟨mid', hmid'⟩ : ∃ mid', mid = mid' ++ ['\n'] := by
        refine ⟨mid.dropLast, ?_⟩
        have hlast : mid.getLast hne = '\n' := by
          have := List.getLast?_eq_getLast mid hne
          rw [hm] at this
          exact (Option.some.inj this).symm
        rw [← hlast]
        exact (List.dropLast_append_getLast hne).symm
      rw [hmid', List.append_assoc]
      rw [show (['\n'] : List Char) ++ rowLine r = '\n' :: rowLine r from rfl]
      exact splitOnChar_getLast '\n' (rowLine r) (rowLine_no_newline r hnl) mid'
  rw [List.map_cons]
  rw [getLast?_cons_of_ne_nil (parseRow header)
    (by
      intro he
      exact splitOnChar_ne_nil '\n' (mid ++ rowLine r) (List.map_eq_nil_iff.mp he))]
  rw [getLast?_map, hparts]
  rw [show (some (rowLine r)).map parseRow = some (parseRow (rowLine r)) from rfl]
  rw [parseRow_rowLine]

/-! ## The header line always parses as the first returned record -/

theorem readEntries_header_first (rest : List Char) :
    ∃ tl, readEntries (header ++ '\n' :: rest) = parseRow header :: tl := by
  unfold readEntries jsTrim
  have hhd : header ++ '\n' :: rest
      = 's' :: (("lot,proposerIndex,graffiti").toList ++ '\n' :: rest) := by
    rw [header_cons_form]
    rfl
  rw [hhd, dropWhile_isWs_cons_neg _ (by decide), ← hhd]
  rw [show header ++ '\n' :: rest = header ++ ('\n' :: rest) from rfl, trimRight_append]
  by_cases h0 : trimRight ('\n' :: rest) = []
  · rw [if_pos h0]
    rw [trimRight_of_getLast header (by
      intro c hc
      rw [header_getLast] at hc
      obtain rfl := Option.some.inj hc
      decide)]
    rw [splitOnChar_single '\n' header header_no_newline]
    exact ⟨[], rfl⟩
  · rw [if_neg h0]
    have h2 : trimRight ('\n' :: rest) = '\n' :: trimRight rest := by
      have h3 := trimRight_append ['\n'] rest
      rw [show (['\n'] : List Char) ++ rest = '\n' :: rest from rfl] at h3
      by_cases h4 : trimRight rest = []
      · exfalso
        apply h0
        rw [h3, if_pos h4]
        decide
      · rw [h3, if_neg h4]
        rfl
    rw [h2]
    rw [splitOnChar_append_sep '\n' (trimRight rest) header header_no_newline]
    rw [List.map_cons]
    exact ⟨_, rfl⟩

/-! ## Parsed entries never contain the line separator in their graffiti -/

theorem mem_of_mem_joinSep (sep : Char) :
    ∀ (parts : List (List Char)) (c : Char), c ∈ joinSep sep parts →
      c = sep ∨ ∃ p ∈ parts, c ∈ p := by
  intro parts
  induction parts with
  | nil =>
    intro c hc
    simp [joinSep] at hc
  | cons x xs ih =>
    intro c hc
    cases xs with
    | nil =>
      right
      exact ⟨x, List.mem_cons_self x [], by simpa [joinSep] using hc⟩
    | cons y ys =>
      rw [show joinSep sep (x :: y :: ys) = x ++ sep :: joinSep sep (y :: ys) from rfl] at hc
      rcases List.mem_append.mp hc with h1 | h2
      · right
        exact ⟨x, List.mem_cons_self x (y :: ys), h1⟩
      · rcases List.mem_cons.mp h2 with rfl | h3
        · left
          rfl
        · rcases ih c h3 with h4 | ⟨p, hp, hcp⟩
          · left
            exact h4
          · right
            exact ⟨p, List.mem_cons_of_mem x hp, hcp⟩

theorem readEntries_graffiti_no_newline (file : List Char) :
    ∀ e ∈ readEntries file, '\n' ∉ e.graffiti := by
  intro e he hmem
  unfold readEntries at he
  obtain ⟨line, hline, rfl⟩ := List.mem_map.mp he
  have hgr : (parseRow line).graffiti
      = joinSep separator ((splitOnChar separator line).drop 2) := rfl
  rw [hgr] at hmem
  rcases mem_of_mem_joinSep separator _ '\n' hmem with h1 | ⟨p, hp, hcp⟩
  · exact absurd h1 (by decide)
  · have hpf : p ∈ splitOnChar separator line := List.mem_of_mem_drop hp
    have hmemline : ('\n' : Char) ∈ line :=
      mem_of_mem_splitOnChar separator line p hpf '\n' hcp
    exact splitOnChar_no_sep '\n' (jsTrim file) line hline hmemline

/-! ## Aggregation lemmas -/

theorem mem_addUnique (acc : List (Option Int)) (x p : Option Int) :
    p ∈ addUnique acc x ↔ p ∈ acc ∨ p = x := by
  unfold addUnique
  by_cases hx : x ∈ acc
  · rw [if_pos hx]
    constructor
    · exact Or.inl
    · rintro (h | rfl)
      · exact h
      · exact hx
  · rw [if_neg hx]
    simp [List.mem_append]

theorem nodup_addUnique (acc : List (Option Int)) (x : Option Int) (h : acc.Nodup) :
    (addUnique acc x).Nodup := by
  unfold addUnique
  by_cases hx : x ∈ acc
  · rw [if_pos hx]
    exact h
  · rw [if_neg hx]
    rw [List.nodup_append]
    exact ⟨h, List.nodup_singleton x, fun a ha hb => hx ((List.mem_singleton.mp hb) ▸ ha)⟩

theorem foldl_collectStep_mem :
    ∀ (l : List Row) (acc : List (Option Int)) (p : Option Int),
      p ∈ l.foldl collectStep acc
        ↔ p ∈ acc ∨ ∃ e ∈ l, keepEntry e = true ∧ e.proposerIndex = p := by
  intro l
  induction l with
  | nil => intro acc p; simp
  | cons e t ih =>
    intro acc p
    rw [List.foldl_cons]
    by_cases hk : keepEntry e = true
    · rw [show collectStep acc e = addUnique acc e.proposerIndex from by
        unfold collectStep; rw [if_pos hk]]
      rw [ih, mem_addUnique]
      constructor
      · rintro ((h | rfl) | ⟨e2, he2, hk2, hp2⟩)
        · exact Or.inl h
        · exact Or.inr ⟨e, List.mem_cons_self e t, hk, rfl⟩
        · exact Or.inr ⟨e2, List.mem_cons_of_mem e he2, hk2, hp2⟩
      · rintro (h | ⟨e2, he2, hk2, hp2⟩)
        · exact Or.inl (Or.inl h)
        · rcases List.mem_cons.mp he2 with rfl | he2t
          · exact Or.inl (Or.inr hp2.symm)
          · exact Or.inr ⟨e2, he2t, hk2, hp2⟩
    · rw [show collectStep acc e = acc from by unfold collectStep; rw [if_neg hk]]
      rw [ih]
      constructor
      · rintro (h | ⟨e2, he2, hk2, hp2⟩)
        · exact Or.inl h
        · exact Or.inr ⟨e2, List.mem_cons_of_mem e he2, hk2, hp2⟩
      · rintro (h | ⟨e2, he2, hk2, hp2⟩)
        · exact Or.inl h
        · rcases List.mem_cons.mp he2 with rfl | he2t
          · exact absurd hk2 hk
          · exact Or.inr ⟨e2, he2t, hk2, hp2⟩

theorem foldl_collectStep_nodup :
    ∀ (l : List Row) (acc : List (Option Int)),
      acc.Nodup → (l.foldl collectStep acc).Nodup := by
  intro l
  induction l with
  | nil => intro acc h; exact h
  | cons e t ih =>
    intro acc h
    rw [List.foldl_cons]
    by_cases hk : keepEntry e = true
    · rw [show collectStep acc e = addUnique acc e.proposerIndex from by
        unfold collectStep; rw [if_pos hk]]
      exact ih _ (nodup_addUnique acc e.proposerIndex h)
    · rw [show collectStep acc e = acc from by unfold collectStep; rw [if_neg hk]]
      exact ih _ h

theorem foldl_collectStep_filter :
    ∀ (l : List Row) (acc : List (Option Int)),
      l.foldl collectStep acc
        = ((l.filter keepEntry).map Row.proposerIndex).foldl addUnique acc := by
  intro l
  induction l with
  | nil => intro acc; rfl
  | cons e t ih =>
    intro acc
    rw [List.foldl_cons, List.filter_cons]
    by_cases hk : keepEntry e = true
    · rw [show collectStep acc e = addUnique acc e.proposerIndex from by
        unfold collectStep; rw [if_pos hk]]
      rw [if_pos hk, List.map_cons, List.foldl_cons, ih]
    · rw [show collectStep acc e = acc from by unfold collectStep; rw [if_neg hk]]
      rw [if_neg hk, ih]

theorem keepEntry_iff (e : Row) :
    keepEntry e = true
      ↔ (∃ s, e.slot = some s ∧ fromSlot ≤ s ∧ s ≤ toSlot)
        ∧ matchesGraffiti e.graffiti = true := by
  unfold keepEntry numGE numLE
  rcases hs : e.slot with _ | s
  · simp
  · simp [and_assoc]

/-! ## Batching lemmas -/

theorem batchIndexesAux_spec :
    ∀ fuel (l : List Int), l.length ≤ fuel →
      (batchIndexesAux fuel l).flatten = l ∧
      (∀ b ∈ batchIndexesAux fuel l, b ≠ [] ∧ b.length ≤ 100) ∧
      (∀ i, i + 1 < (batchIndexesAux fuel l).length →
        ((batchIndexesAux fuel l).getD i []).length = 100) := by
  intro fuel
  induction fuel with
  | zero =>
    intro l hl
    have h0 : l = [] := List.length_eq_zero.mp (Nat.le_zero.mp hl)
    subst h0
    exact ⟨rfl, by simp [batchIndexesAux], by simp [batchIndexesAux]⟩
  | succ fuel ih =>
    intro l hl
    by_cases h0 : l = []
    · subst h0
      rw [show batchIndexesAux (fuel + 1) [] = [] from by simp [batchIndexesAux]]
      exact ⟨rfl, by simp, by simp⟩
    · have hbatch : batchIndexesAux (fuel + 1) l
          = l.take 100 :: batchIndexesAux fuel (l.drop 100) := by
        simp [batchIndexesAux, h0]
      have hpos : 0 < l.length := List.length_pos.mpr h0
      have hlen : (l.drop 100).length ≤ fuel := by
        rw [List.length_drop]
        omega
      obtain ⟨ihj, ihm, ihl⟩ := ih (l.drop 100) hlen
      refine ⟨?_, ?_, ?_⟩
      · rw [hbatch, List.flatten_cons, ihj, List.take_append_drop]
      · intro b hb
        rw [hbatch] at hb
        rcases List.mem_cons.mp hb with rfl | hb
        · constructor
          · intro he
            have hlt := congrArg List.length he
            rw [List.length_take] at hlt
            simp only [List.length_nil] at hlt
            omega
          · rw [List.length_take]
            omega
        · exact ihm b hb
      · intro i hi
        rw [hbatch] at hi ⊢
        cases i with
        | zero =>
          have hne : batchIndexesAux fuel (l.drop 100) ≠ [] := by
            intro he
            rw [List.length_cons, he] at hi
            simp at hi
          have hdrop : l.drop 100 ≠ [] := by
            intro he
            apply hne
            rw [he]
            cases fuel <;> simp [batchIndexesAux]
          have hlong : 100 < l.length := by
            by_contra hle
            apply hdrop
            apply List.length_eq_zero.mp
            rw [List.length_drop]
            omega
          rw [show (l.take 100 :: batchIndexesAux fuel (l.drop 100)).getD 0 [] = l.take 100
            from rfl]
          rw [List.length_take]
          omega
        | succ j =>
          rw [List.length_cons] at hi
          rw [show (l.take 100 :: batchIndexesAux fuel (l.drop 100)).getD (j + 1) []
            = (batchIndexesAux fuel (l.drop 100)).getD j [] from rfl]
          exact ihl j (by omega)

/-! ## Deposit processing lemmas -/

theorem processDeposits_foldl :
    ∀ (ds : List Deposit) (a1 a2 : List (List Char)),
      ds.foldl
        (fun acc d =>
          if badDeposit d then (acc.1, acc.2 ++ [d.publickey])
          else (acc.1 ++ [d.from_address], acc.2))
        (a1, a2)
      = (a1 ++ (ds.filter (fun d => !badDeposit d)).map Deposit.from_address,
         a2 ++ (ds.filter badDeposit).map Deposit.publickey) := by
  intro ds
  induction ds with
  | nil => intro a1 a2; simp
  | cons d t ih =>
    intro a1 a2
    rw [List.foldl_cons]
    by_cases hb : badDeposit d = true
    · rw [if_pos hb, ih]
      simp [List.filter_cons, hb]
    · rw [if_neg hb, ih]
      simp only [Bool.not_eq_true] at hb
      simp [List.filter_cons, hb]

/-! ## Truncation loop of parseGraffiti -/

theorem foldl_truncate (l : List Nat) :
    ∀ (n : Nat) (init : List Nat),
      (List.enumFrom n l).foldl
          (fun buff p => if p.2 = 0 then buff.take p.1 else buff) init
        = if ∀ x ∈ l, x ≠ 0 then init
          else init.take (n + (l.takeWhile (fun b => b != 0)).length) := by
  induction l with
  | nil =>
    intro n init
    rw [if_pos (by intro x hx; simp at hx)]
    rfl
  | cons x xs ih =>
    intro n init
    rw [show List.enumFrom n (x :: xs) = (n, x) :: List.enumFrom (n + 1) xs from rfl]
    rw [List.foldl_cons]
    by_cases hx : x = 0
    · subst hx
      rw [show (if (0 : Nat) = 0 then init.take n else init) = init.take n from if_pos rfl]
      rw [ih (n + 1) (init.take n)]
      rw [show (if ∀ x ∈ (0 : Nat) :: xs, x ≠ 0 then init
            else init.take (n + (((0 : Nat) :: xs).takeWhile (fun b => b != 0)).length))
          = init.take (n + (((0 : Nat) :: xs).takeWhile (fun b => b != 0)).length) from
        if_neg (fun hc => hc 0 (List.mem_cons_self 0 xs) rfl)]
      rw [show List.takeWhile (fun b => b != 0) ((0 : Nat) :: xs) = [] from by
        simp [List.takeWhile_cons]]
      simp only [List.length_nil]
      by_cases hall : ∀ y ∈ xs, y ≠ 0
      · rw [if_pos hall]
        simp
      · rw [if_neg hall, List.take_take]
        congr 1
        omega
    · rw [show (if x = 0 then init.take n else init) = init from if_neg hx]
      rw [ih (n + 1) init]
      rw [show List.takeWhile (fun b => b != 0) (x :: xs)
          = x :: List.takeWhile (fun b => b != 0) xs from by
        simp [List.takeWhile_cons, hx]]
      by_cases hall : ∀ y ∈ xs, y ≠ 0
      · rw [if_pos hall, if_pos (by
          intro y hy
          rcases List.mem_cons.mp hy with rfl | hy2
          · exact hx
          · exact hall y hy2)]
      · rw [if_neg hall, if_neg (fun hc => hall fun y hy => hc y (List.mem_cons_of_mem x hy))]
        rw [List.length_cons]
        congr 1
        omega

theorem graffitiTruncate_takeWhile (l : List Nat) :
    graffitiTruncate l = l.takeWhile (fun b => b != 0) := by
  unfold graffitiTruncate
  rw [show l.enum = List.enumFrom 0 l from rfl]
  rw [foldl_truncate l 0 l]
  by_cases hall : ∀ x ∈ l, x ≠ 0
  · rw [if_pos hall]
    exact (takeWhile_all l (by intro c hc; simpa using hall c hc)).symm
  · rw [if_neg hall, Nat.zero_add]
    exact take_length_takeWhile l

/-! ## The ascending slot interval -/

theorem mem_intRangeIncl (a b s : Int) : s ∈ intRangeIncl a b ↔ a ≤ s ∧ s ≤ b := by
  unfold intRangeIncl
  rw [List.mem_map]
  constructor
  · rintro ⟨i, hi, rfl⟩
    rw [List.mem_range] at hi
    omega
  · rintro ⟨h1, h2⟩
    refine ⟨(s - a).toNat, ?_, ?_⟩
    · rw [List.mem_range]
      omega
    · omega

/-! ## Helper for the first element of a slot interval -/

theorem headD_intRangeIncl (a b : Int) (h : a ≤ b) : (intRangeIncl a b).headD 0 = a := by
  unfold intRangeIncl
  have h1 : (b + 1 - a).toNat = (b - a).toNat + 1 := by omega
  rw [h1, List.range_succ_eq_map]
  simp

/-! ## Claims -/

/-- C1 (corrected): when the checkpoint parses to a number S, the scan
begins at S + 1 with no clamping to the configured start slot, and never
fetches slot S or earlier; when there is no checkpoint, the scan begins
at fromSlot + 1 (not fromSlot, contrary to the claim). -/
theorem c1_resume_point (file : List Char) (S : Int) :
    (getLastSlot file = some (some S) →
      scannedSlots file = intRangeIncl (S + 1) toSlot
        ∧ ∀ s ∈ scannedSlots file, S < s)
    ∧ (getLastSlot file = none →
      scannedSlots file = intRangeIncl (fromSlot + 1) toSlot) := by
  constructor
  · intro h
    have hs : scannedSlots file = intRangeIncl (S + 1) toSlot := by
      unfold scannedSlots lastSlotOrFrom
      rw [h]
      rfl
    refine ⟨hs, ?_⟩
    intro s hsmem
    rw [hs, mem_intRangeIncl] at hsmem
    omega
  · intro h
    unfold scannedSlots lastSlotOrFrom
    rw [h]
    rfl

/-- Witness for C1 at a store holding one record with slot 100. -/
theorem c1_resume_point_witness :
    getLastSlot (initialFile ++ ("100,2,x\n").toList) = some (some 100)
    ∧ (scannedSlots (initialFile ++ ("100,2,x\n").toList)
        = intRangeIncl (100 + 1) toSlot
      ∧ ∀ s ∈ scannedSlots (initialFile ++ ("100,2,x\n").toList), (100 : Int) < s) :=
  ⟨by decide, (c1_resume_point (initialFile ++ ("100,2,x\n").toList) 100).1 (by decide)⟩

/-- Counterexample to C1 as stated: with no checkpoint (freshly created
store) the scan does not begin at the configured fromSlot; the slot
fromSlot itself is inside the configured window yet is never fetched, and
the first fetched slot is fromSlot + 1. -/
theorem c1_counterexample :
    getLastSlot initialFile = none
    ∧ fromSlot ≤ toSlot
    ∧ fromSlot ∉ scannedSlots initialFile
    ∧ (scannedSlots initialFile).headD 0 = fromSlot + 1 := by
  have hs : scannedSlots initialFile = intRangeIncl (fromSlot + 1) toSlot := by
    unfold scannedSlots lastSlotOrFrom
    rw [show getLastSlot initialFile = none from by decide]
    rfl
  refine ⟨by decide, by decide, ?_, ?_⟩
  · intro hmem
    rw [hs, mem_intRangeIncl] at hmem
    omega
  · rw [hs, headD_intRangeIncl _ _ (by decide)]

/-- C2 (corrected): readEntries parses every line of the store file,
header line included: the record parsed from the header (slot and
proposer index NaN, graffiti "graffiti") is always the first element of
the returned sequence, contrary to the claim that the header never
appears. -/
theorem c2_header_row_parsed (rest : List Char) :
    ∃ tl, readEntries (header ++ '\n' :: rest) = parseRow header :: tl
      ∧ parseRow header
        = { slot := none, proposerIndex := none, graffiti := ("graffiti").toList } := by
  obtain ⟨tl, htl⟩ := readEntries_header_first rest
  exact ⟨tl, htl, by decide⟩

/-- Counterexample to C2 as stated: on the freshly created store the
returned sequence consists exactly of the record parsed from the header
row. -/
theorem c2_counterexample :
    readEntries initialFile = [parseRow header]
    ∧ parseRow header
      = { slot := none, proposerIndex := none, graffiti := ("graffiti").toList } := by
  constructor <;> decide

/-- C3 (corrected): a malformed line does not fail the read; parseInt
returns NaN (modelled none) for a non-numeric field, read-back returns
one record per line, and a record whose slot is NaN is silently excluded
by the aggregation filter rather than aborting anything. -/
theorem c3_no_parse_failure :
    (∀ file : List Char,
      (readEntries file).length = (splitOnChar '\n' (jsTrim file)).length)
    ∧ (∀ (p : Option Int) (g : List Char),
      keepEntry { slot := none, proposerIndex := p, graffiti := g } = false)
    ∧ parseRow (("abc,def,ghi").toList)
      = { slot := none, proposerIndex := none, graffiti := ("ghi").toList } := by
  refine ⟨?_, ?_, by decide⟩
  · intro file
    unfold readEntries
    simp
  · intro p g
    rfl

/-- Counterexample to C3 as stated: a store with a malformed line reads
back successfully as concrete records (no failure), and aggregation
continues past the malformed line, still collecting the valid record
after it. -/
theorem c3_counterexample :
    readEntries (header ++ '\n' :: ("abc,def,ghi\n327600,7,dappnode").toList)
      = [parseRow header,
         { slot := none, proposerIndex := none, graffiti := ("ghi").toList },
         { slot := some 327600, proposerIndex := some 7,
           graffiti := ("dappnode").toList }]
    ∧ collectIndexes
        (readEntries (header ++ '\n' :: ("abc,def,ghi\n327600,7,dappnode").toList))
      = [some 7] := by
  constructor <;> decide

/-- C4 (corrected): appending a record to a well-formed store (every
line newline-terminated) and reading back recovers the record as the
last parsed entry, in all three fields, commas in the graffiti included;
this requires the graffiti to contain no newline and not to end in a
character the JavaScript trim removes, and the numeric fields to be NaN
or safe integers (where decimal printing is exact). -/
theorem c4_roundtrip (mid : List Char) (r : Row)
    (hmid : mid = [] ∨ mid.getLast? = some '\n')
    (_hslot : numSafe r.slot = true)
    (_hpi : numSafe r.proposerIndex = true)
    (hnl : '\n' ∉ r.graffiti)
    (hg : Option.all (fun c => !(isWs c)) r.graffiti.getLast? = true) :
    (readEntries (addEntry (header ++ '\n' :: mid) r)).getLast? = some r :=
  readEntries_addEntry mid r hmid hnl hg

/-- Witness for C4 on the fresh store and a record whose graffiti
contains the separator. -/
theorem c4_roundtrip_witness :
    (([] : List Char) = [] ∨ ([] : List Char).getLast? = some '\n')
    ∧ numSafe rowCommaGraffiti.slot = true
    ∧ numSafe rowCommaGraffiti.proposerIndex = true
    ∧ '\n' ∉ rowCommaGraffiti.graffiti
    ∧ Option.all (fun c => !(isWs c)) rowCommaGraffiti.graffiti.getLast? = true
    ∧ (readEntries (addEntry (header ++ '\n' :: []) rowCommaGraffiti)).getLast?
      = some rowCommaGraffiti :=
  ⟨Or.inl rfl, by decide, by decide, by decide, by decide,
    c4_roundtrip [] rowCommaGraffiti (Or.inl rfl) (by decide) (by decide) (by decide)
      (by decide)⟩

/-- Counterexample to C4 as stated (for every Block Record): a graffiti
with trailing whitespace (an ASCII space, or a vertical tab, which the
JavaScript trim also removes) comes back trimmed because the whole file
is trimmed before splitting, and a graffiti with an embedded newline is
split; in all cases no returned record equals the appended one. -/
theorem c4_counterexample :
    readEntries (addEntry initialFile rowTrailingSpace)
      = [parseRow header,
         { slot := some 1, proposerIndex := some 2, graffiti := ("x").toList }]
    ∧ rowTrailingSpace ∉ readEntries (addEntry initialFile rowTrailingSpace)
    ∧ readEntries (addEntry initialFile rowTrailingVTab)
      = [parseRow header,
         { slot := some 5, proposerIndex := some 6, graffiti := ("x").toList }]
    ∧ rowTrailingVTab ∉ readEntries (addEntry initialFile rowTrailingVTab)
    ∧ rowNewlineGraffiti ∉ readEntries (addEntry initialFile rowNewlineGraffiti) := by
  refine ⟨by decide, by decide, by decide, by decide, by decide⟩

/-- C5 (confirmed): parseGraffiti decodes the base64 payload, truncates
the byte sequence at the first zero byte (the mutating loop over the
original buffer computes exactly takeWhile nonzero), and decodes the
remainder as UTF-8; the NUL-padded payload for "test" decodes to "test". -/
theorem c5_parse_graffiti :
    (∀ s : List Char,
      parseGraffiti s = utf8Decode ((base64Decode s).takeWhile (fun b => b != 0)))
    ∧ parseGraffiti (("dGVzdAAAAAA=").toList) = ("test").toList := by
  constructor
  · intro s
    unfold parseGraffiti
    rw [graffitiTruncate_takeWhile]
  · decide

/-- C6 (confirmed): a deposit contributes its funding address exactly
when amount is at least 32000000000, it is not removed and its signature
is valid; every other deposit is logged by public key and skipped, and
processing never fails (it is a total function). -/
theorem c6_deposit_validity :
    (∀ ds : List Deposit,
      processDeposits ds
        = ((ds.filter (fun d => !badDeposit d)).map Deposit.from_address,
           (ds.filter badDeposit).map Deposit.publickey))
    ∧ (∀ d : Deposit,
      badDeposit d = false
        ↔ 32000000000 ≤ d.amount ∧ d.removed = false ∧ d.valid_signature = true) := by
  constructor
  · intro ds
    unfold processDeposits
    rw [processDeposits_foldl]
    simp
  · intro d
    rcases d with ⟨amount, fa, pk, removed, valid⟩
    simp only [badDeposit]
    cases removed <;> cases valid <;> simp [not_lt]

/-- C7 (confirmed): a record contributes its proposer index to the
output exactly when its slot is a number inside the configured window
and its graffiti matches the pattern; the output has no duplicates and
equals the first-seen-order deduplication of the filtered indexes. -/
theorem c7_filter_dedup (entries : List Row) :
    (∀ p, p ∈ collectIndexes entries
      ↔ ∃ e ∈ entries,
          (∃ s, e.slot = some s ∧ fromSlot ≤ s ∧ s ≤ toSlot)
          ∧ matchesGraffiti e.graffiti = true ∧ e.proposerIndex = p)
    ∧ (collectIndexes entries).Nodup
    ∧ collectIndexes entries
      = firstSeenDedup ((entries.filter keepEntry).map Row.proposerIndex) := by
  refine ⟨?_, ?_, ?_⟩
  · intro p
    unfold collectIndexes
    rw [foldl_collectStep_mem]
    simp only [List.not_mem_nil, false_or]
    constructor
    · rintro ⟨e, he, hk, hp⟩
      rw [keepEntry_iff] at hk
      exact ⟨e, he, hk.1, hk.2, hp⟩
    · rintro ⟨e, he, hs, hm, hp⟩
      exact ⟨e, he, (keepEntry_iff e).mpr ⟨hs, hm⟩, hp⟩
  · exact foldl_collectStep_nodup entries [] List.nodup_nil
  · unfold collectIndexes firstSeenDedup
    exact foldl_collectStep_filter entries []

/-- C8 (confirmed): the resolver partitions the index list into
consecutive batches in list order (their concatenation is the original
list), every batch is nonempty with at most 100 elements, every batch
except possibly the last has exactly 100, and a list of length 250 gives
exactly the batch sizes 100, 100, 50. -/
theorem c8_batching :
    (∀ l : List Int,
      (batchIndexes l).flatten = l
      ∧ (∀ b ∈ batchIndexes l, b ≠ [] ∧ b.length ≤ 100)
      ∧ (∀ i, i + 1 < (batchIndexes l).length
          → ((batchIndexes l).getD i []).length = 100))
    ∧ (batchIndexes ((List.range 250).map (fun n : Nat => (n : Int)))).map List.length
      = [100, 100, 50] := by
  constructor
  · intro l
    exact batchIndexesAux_spec l.length l (le_refl _)
  · decide

/-- C9 (corrected): the header-derived record (NaN slot and proposer
index) heads every read-back of a header-led store and is rejected by
the slot-range comparison, so it never reaches the index set; but the
wider statement of the claim fails: other malformed rows can still
insert NaN, see the counterexample. -/
theorem c9_header_rejected (rest : List Char) :
    parseRow header
      = { slot := none, proposerIndex := none, graffiti := ("graffiti").toList }
    ∧ numGE (parseRow header).slot fromSlot = false
    ∧ keepEntry (parseRow header) = false
    ∧ collectIndexes (readEntries (header ++ '\n' :: rest))
      = collectIndexes ((readEntries (header ++ '\n' :: rest)).drop 1) := by
  refine ⟨by decide, by decide, by decide, ?_⟩
  obtain ⟨tl, htl⟩ := readEntries_header_first rest
  rw [htl]
  rw [show (parseRow header :: tl).drop 1 = tl from rfl]
  unfold collectIndexes
  rw [List.foldl_cons]
  rw [show collectStep [] (parseRow header) = [] from by
    unfold collectStep
    rw [if_neg (by rw [show keepEntry (parseRow header) = false from by decide]; simp)]]

/-- Counterexample to C9 as stated: a data row with numeric slot in the
window, matching graffiti, but non-numeric proposer index puts NaN
(none) into the deduplicated index set. -/
theorem c9_counterexample :
    none ∈ collectIndexes
      (readEntries (header ++ '\n' :: ("327600,abc,dappnode").toList)) := by
  decide

/-- C10 (confirmed): for every record whose graffiti contains a newline,
appending it and reading the store back yields no record equal to it:
every parsed record has newline-free graffiti because lines are split on
newline. -/
theorem c10_newline_graffiti_lost (file : List Char) (r : Row) (h : '\n' ∈ r.graffiti) :
    ∀ e ∈ readEntries (addEntry file r), e ≠ r := by
  intro e he heq
  have hno := readEntries_graffiti_no_newline (addEntry file r) e he
  rw [heq] at hno
  exact hno h

/-- Witness for C10 at a concrete record with an embedded newline. -/
theorem c10_newline_witness :
    ('\n' ∈ rowNewlineGraffiti.graffiti)
    ∧ ∀ e ∈ readEntries (addEntry initialFile rowNewlineGraffiti),
      e ≠ rowNewlineGraffiti :=
  ⟨by decide, c10_newline_graffiti_lost initialFile rowNewlineGraffiti (by decide)⟩
